import Mathlib

/-!
Verification of the image pipeline core (src/image.cpp) and the thermal
calibration table header (src/algo/thermal-loop/l500-thermal-loop.h).

Modelling conventions:
- machine integers are Nat / Int with explicit % 2^w where truncation matters;
- C float values are modelled as rationals; the floating-point
  deproject / transform / project pipeline of rsutil.h (outside this tree)
  is kept as an abstract parameter, so every theorem about the alignment
  kernel holds for an arbitrary projection pipeline;
- the assert-based failure paths are modelled with Except.
-/

namespace rsimpl

/-- Rounding performed at line 213 of image.cpp: the C expression
(int)std::round(f) rounds half away from zero. -/
def cround (q : ℚ) : Int := if q < 0 then -⌊-q + 1/2⌋ else ⌊q + 1/2⌋

/-- Body of the inner loop of align_images (image.cpp lines 201-221) for the
depth pixel (depth_x, depth_y): returns the argument pair passed to the
transfer_pixel callback, or none when the pixel is skipped.  The composite
rs_deproject_pixel_to_point / rs_transform_point_to_point /
rs_project_point_to_pixel pipeline is the abstract parameter proj. -/
def alignPixel (Wd Wo Ho : Nat) (get_depth : Nat → ℚ) (proj : Nat → Nat → ℚ → ℚ × ℚ)
    (depth_x depth_y : Nat) : Option (Nat × Int) :=
  if get_depth (depth_y * Wd + depth_x) = 0 then none
  else
    if cround (proj depth_x depth_y (get_depth (depth_y * Wd + depth_x))).1 < 0 ∨
       cround (proj depth_x depth_y (get_depth (depth_y * Wd + depth_x))).2 < 0 ∨
       cround (proj depth_x depth_y (get_depth (depth_y * Wd + depth_x))).1 ≥ (Wo : Int) ∨
       cround (proj depth_x depth_y (get_depth (depth_y * Wd + depth_x))).2 ≥ (Ho : Int) then none
    else some (depth_y * Wd + depth_x,
      cround (proj depth_x depth_y (get_depth (depth_y * Wd + depth_x))).2 * (Wo : Int) +
        cround (proj depth_x depth_y (get_depth (depth_y * Wd + depth_x))).1)

/-- align_images (image.cpp lines 196-224): iterate over the depth image in
raster order; the result lists, in invocation order, the argument pairs
(depth_pixel_index, other_pixel_index) passed to transfer_pixel. -/
def align_images (Wd Hd Wo Ho : Nat) (get_depth : Nat → ℚ)
    (proj : Nat → Nat → ℚ → ℚ × ℚ) : List (Nat × Int) :=
  (List.range Hd).flatMap (fun depth_y =>
    (List.range Wd).filterMap (fun depth_x => alignPixel Wd Wo Ho get_depth proj depth_x depth_y))

/-- align_depth_to_color (image.cpp lines 226-232): run align_images with
get_depth fetching depth_pixels[i] * depth_scale, and on each transfer write
out_depth[color_pixel_index] = depth_pixels[depth_pixel_index].  The result is
the final contents of the output buffer, starting from out0. -/
def align_depth_to_color (Wd Hd Wo Ho : Nat) (depth_pixels : Nat → Nat) (depth_scale : ℚ)
    (proj : Nat → Nat → ℚ → ℚ × ℚ) (out0 : Int → Nat) : Int → Nat :=
  (align_images Wd Hd Wo Ho (fun i => (depth_pixels i : ℚ) * depth_scale) proj).foldl
    (fun out p => Function.update out p.2 (depth_pixels p.1)) out0

/-- Packed pixel of N bytes, the bytes-of-N struct of image.cpp line 193. -/
def bytes (N : Nat) : Type := Fin N → Nat

/-- align_color_to_depth_bytes (image.cpp lines 234-241): same depth fetch,
but each transfer writes out_color[depth_pixel_index] = in_color[color_pixel_index]. -/
def align_color_to_depth_bytes (N : Nat) (Wd Hd Wo Ho : Nat) (depth_pixels : Nat → Nat)
    (depth_scale : ℚ) (proj : Nat → Nat → ℚ → ℚ × ℚ)
    (in_color : Int → bytes N) (out0 : Nat → bytes N) : Nat → bytes N :=
  (align_images Wd Hd Wo Ho (fun i => (depth_pixels i : ℚ) * depth_scale) proj).foldl
    (fun out p => Function.update out p.1 (in_color p.2)) out0

/-- compute_rectification_table (image.cpp lines 264-271): a table of
rect_width * rect_height entries, value-initialised to 0 by resize, then
filled by align_images with constant depth 1.0, each transfer storing the
unrectified index at the rectified index. -/
def compute_rectification_table (Wr Hr Wu Hu : Nat)
    (proj : Nat → Nat → ℚ → ℚ × ℚ) : List Int :=
  (align_images Wr Hr Wu Hu (fun _ => 1) proj).foldl
    (fun table p => table.set p.1 p.2) (List.replicate (Wr * Hr) 0)

/-- rectify_image_pixels (image.cpp lines 273-276): one indirect load per
table entry. -/
def rectify_image_pixels {β : Type} (rectification_table : List Int)
    (unrect_pixels : Int → β) : List β :=
  rectification_table.map (fun entry => unrect_pixels entry)

/-!
Format dispatch.  rs_format is the closed pixel-format enum; img_error models
the assert-based failure paths (assert(false) on an unsupported format and the
width-divisibility assert) as the errors the spec mandates.
-/

inductive rs_format where
  | Z16 | YUYV | RGB8 | BGR8 | RGBA8 | BGRA8 | Y8 | Y16
deriving DecidableEq

inductive img_error where
  | UnsupportedFormat | BadGeometry
deriving DecidableEq

/-- Reinterpretation of a raw byte buffer as an array of N-byte pixels, the
(const bytes<N> *) cast of image.cpp. -/
def byte_view (N : Nat) (buf : Int → Nat) (k : Int) : bytes N :=
  fun j => buf (k * N + (j : Int))

/-- align_color_to_depth (image.cpp lines 243-258): dispatch on the color
format to the 1/2/3/4-byte instantiation of align_color_to_depth_bytes; the
default branch (only RS_FORMAT_YUYV remains) hits assert(false), modelled as
UnsupportedFormat. -/
def align_color_to_depth (Wd Hd Wo Ho : Nat) (depth_pixels : Nat → Nat) (depth_scale : ℚ)
    (proj : Nat → Nat → ℚ → ℚ × ℚ) (color_bytes : Int → Nat) (out_bytes : Int → Nat)
    (color_format : rs_format) : Except img_error ((N : Nat) × (Nat → bytes N)) :=
  match color_format with
  | .Y8 => .ok ⟨1, align_color_to_depth_bytes 1 Wd Hd Wo Ho depth_pixels depth_scale proj
      (byte_view 1 color_bytes) (fun k => byte_view 1 out_bytes (k : Int))⟩
  | .Y16 | .Z16 => .ok ⟨2, align_color_to_depth_bytes 2 Wd Hd Wo Ho depth_pixels depth_scale proj
      (byte_view 2 color_bytes) (fun k => byte_view 2 out_bytes (k : Int))⟩
  | .RGB8 | .BGR8 => .ok ⟨3, align_color_to_depth_bytes 3 Wd Hd Wo Ho depth_pixels depth_scale proj
      (byte_view 3 color_bytes) (fun k => byte_view 3 out_bytes (k : Int))⟩
  | .RGBA8 | .BGRA8 => .ok ⟨4, align_color_to_depth_bytes 4 Wd Hd Wo Ho depth_pixels depth_scale proj
      (byte_view 4 color_bytes) (fun k => byte_view 4 out_bytes (k : Int))⟩
  | .YUYV => .error .UnsupportedFormat

/-- rectify_image (image.cpp lines 278-293): dispatch on the pixel format to
rectify_image_pixels at 1/2/3/4 bytes per pixel; the default branch (only
RS_FORMAT_YUYV remains) hits assert(false), modelled as UnsupportedFormat. -/
def rectify_image (rectification_table : List Int) (unrect_bytes : Int → Nat)
    (format : rs_format) : Except img_error ((N : Nat) × List (bytes N)) :=
  match format with
  | .Y8 => .ok ⟨1, rectify_image_pixels rectification_table (byte_view 1 unrect_bytes)⟩
  | .Y16 | .Z16 => .ok ⟨2, rectify_image_pixels rectification_table (byte_view 2 unrect_bytes)⟩
  | .RGB8 | .BGR8 => .ok ⟨3, rectify_image_pixels rectification_table (byte_view 3 unrect_bytes)⟩
  | .RGBA8 | .BGRA8 => .ok ⟨4, rectify_image_pixels rectification_table (byte_view 4 unrect_bytes)⟩
  | .YUYV => .error .UnsupportedFormat

/-!
Size oracle (image.cpp lines 45-69).  FourCC tags are the values of the C
multi-character literals; the in-loop divisibility assert is modelled as
BadGeometry and the fall-through assert(false) as UnsupportedFormat.
-/

def fourcc_YUY2 : Nat := 0x59555932
def fourcc_Z16 : Nat := 0x5A313620
def fourcc_Y8 : Nat := 0x59382020
def fourcc_Y16 : Nat := 0x59313620
def fourcc_Y8I : Nat := 0x59384920
def fourcc_Y12I : Nat := 0x59313249
def fourcc_INVR : Nat := 0x494E5652
def fourcc_INVZ : Nat := 0x494E565A
def fourcc_INVI : Nat := 0x494E5649
def fourcc_INRI : Nat := 0x494E5249
def fourcc_INZI : Nat := 0x494E5A49

/-- The static formats table of get_image_size: fourcc code, macropixel width
in pixels, macropixel size in bytes. -/
def formats : List (Nat × Nat × Nat) :=
  [(fourcc_YUY2, 2, 4),
   (fourcc_Z16, 1, 2),
   (fourcc_Y8, 1, 1),
   (fourcc_Y16, 1, 2),
   (fourcc_Y8I, 1, 2),
   (fourcc_Y12I, 1, 3),
   (fourcc_INVR, 1, 2),
   (fourcc_INVZ, 1, 2),
   (fourcc_INVI, 1, 1),
   (fourcc_INRI, 1, 3),
   (fourcc_INZI, 2, 4)]

/-- get_image_size for FourCC input formats (image.cpp lines 45-69): find the
matching table row, fail on the width-divisibility assert, otherwise return
(width / macropixel_width) * height * macropixel_size; no row matching means
the unsupported-format assert. -/
def get_image_size (width height : Nat) (fourcc : Nat) : Except img_error Nat :=
  match formats.find? (fun f => f.1 == fourcc) with
  | some f => if width % f.2.1 == 0
      then .ok (width / f.2.1 * height * f.2.2)
      else .error .BadGeometry
  | none => .error .UnsupportedFormat

/-!
YUY2 decoding (image.cpp lines 110-136).  unpack_from_yuy2 walks the
macropixels of each requested row and emits two pixels per macropixel, passing
(y0 - 16, u - 128, v - 128) and (y1 - 16, u - 128, v - 128) to the
per-format unpack lambda.  The C right shift by 8 of a (two's-complement) int
is an arithmetic shift, which Int.shiftRight implements.
-/

structure yuy2_macropixel where
  y0 : Nat
  u : Nat
  y1 : Nat
  v : Nat

def clamp_byte (v : Int) : Nat := if v < 0 then 0 else if 255 < v then 255 else v.toNat

def yuv_to_r (y u v : Int) : Nat := clamp_byte ((128 + 298 * y + 409 * v) >>> 8)

def yuv_to_g (y u v : Int) : Nat := clamp_byte ((128 + 298 * y - 100 * u - 208 * v) >>> 8)

def yuv_to_b (y u v : Int) : Nat := clamp_byte ((128 + 298 * y + 516 * u) >>> 8)

structure byte3 where
  a : Nat
  b : Nat
  c : Nat
deriving DecidableEq

/-- The macropixel traversal of unpack_from_yuy2 on one stream of
macropixels. -/
def unpack_from_yuy2 {α : Type} (unpack : Int → Int → Int → α)
    (source : List yuy2_macropixel) : List α :=
  source.flatMap (fun p =>
    [unpack ((p.y0 : Int) - 16) ((p.u : Int) - 128) ((p.v : Int) - 128),
     unpack ((p.y1 : Int) - 16) ((p.u : Int) - 128) ((p.v : Int) - 128)])

/-- unpack_rgb_from_yuy2 (image.cpp line 133). -/
def unpack_rgb_from_yuy2 (source : List yuy2_macropixel) : List byte3 :=
  unpack_from_yuy2 (fun y u v => byte3.mk (yuv_to_r y u v) (yuv_to_g y u v) (yuv_to_b y u v))
    source

/-- Modelled from the spec: the BT.601 fixed-point formulas exactly as the
spec writes them, clamp((128 + 298*(y-16) + 409*(v-128)) >> 8, 0, 255) and
companions, expressed with min / max over Int for comparison against the
code-derived yuv_to_r / yuv_to_g / yuv_to_b. -/
def bt601_clamp (v : Int) : Int := max 0 (min 255 v)

def bt601_r (yb vb : Nat) : Int :=
  bt601_clamp ((128 + 298 * ((yb : Int) - 16) + 409 * ((vb : Int) - 128)) >>> 8)

def bt601_g (yb ub vb : Nat) : Int :=
  bt601_clamp ((128 + 298 * ((yb : Int) - 16) - 100 * ((ub : Int) - 128)
    - 208 * ((vb : Int) - 128)) >>> 8)

def bt601_b (yb ub : Nat) : Int :=
  bt601_clamp ((128 + 298 * ((yb : Int) - 16) + 516 * ((ub : Int) - 128)) >>> 8)

/-!
Dual-plane splits (image.cpp lines 142-172) and bit-depth expansion
(lines 103-104).
-/

/-- The y12i_pixel bit-field struct (image.cpp lines 14-20): fields
rl:8, rh:4, ll:4, lh:8 over 3 bytes. -/
structure y12i_pixel where
  rl : Nat
  rh : Nat
  ll : Nat
  lh : Nat
deriving DecidableEq

/-- How the 3 little-endian bytes of a Y12I pixel populate the bit-fields on
the targeted ABIs (Itanium and MSVC both allocate bit-fields starting at the
least significant bit of each byte-sized unit): rl is byte 0, rh is the low
nibble of byte 1, ll is the high nibble of byte 1, lh is byte 2. -/
def y12i_of_bytes (b0 b1 b2 : Nat) : y12i_pixel :=
  { rl := b0, rh := b1 % 16, ll := b1 / 16, lh := b2 }

/-- Member function l() of y12i_pixel: lh << 4 | ll. -/
def y12i_pixel.l (p : y12i_pixel) : Nat := p.lh <<< 4 ||| p.ll

/-- Member function r() of y12i_pixel: rh << 8 | rl. -/
def y12i_pixel.r (p : y12i_pixel) : Nat := p.rh <<< 8 ||| p.rl

/-- split_frame (image.cpp lines 142-157) on one stream of source pixels:
plane 0 collects split_a of each pixel, plane 1 collects split_b. -/
def split_frame {σ α β : Type} (split_a : σ → α) (split_b : σ → β)
    (source : List σ) : List α × List β :=
  (source.map split_a, source.map split_b)

/-- unpack_y16_y16_from_y12i_10 (image.cpp lines 167-172); the lambdas return
uint16_t, hence the reduction mod 2^16. -/
def unpack_y16_y16_from_y12i_10 (source : List y12i_pixel) : List Nat × List Nat :=
  split_frame (fun p => (p.l <<< 6 ||| p.l >>> 4) % 65536)
    (fun p => (p.r <<< 6 ||| p.r >>> 4) % 65536) source

/-- unpack_y16_from_y8 per-pixel lambda (image.cpp line 103): the uint8_t
pixel expands to the uint16_t value pixel | pixel << 8. -/
def unpack_y16_from_y8 (pixel : Nat) : Nat := (pixel ||| pixel <<< 8) % 65536

/-- unpack_y16_from_y16_10 per-pixel lambda (image.cpp line 104): the uint16_t
sample expands to the uint16_t value pixel << 6. -/
def unpack_y16_from_y16_10 (pixel : Nat) : Nat := (pixel <<< 6) % 65536

/-!
Thermal calibration table (src/algo/thermal-loop/l500-thermal-loop.h).
IEEE-754 float32 fields are modelled as rationals, on which the C equality
operator coincides with structural equality.
-/

/-- The header struct of thermal_calibration_table (lines 31-37). -/
structure thermal_header where
  min_temp : ℚ
  max_temp : ℚ
  reference_temp : ℚ
  valid : ℚ
deriving DecidableEq, Inhabited

/-- The temp_data struct (lines 39-45). -/
structure temp_data where
  scale : ℚ
  sheer : ℚ
  tx : ℚ
  ty : ℚ
deriving DecidableEq, Inhabited

/-- thermal_calibration_table (lines 25-55): the header plus the vals vector
(29 temp_data entries in a well-formed table). -/
structure thermal_calibration_table where
  header : thermal_header
  vals : List temp_data
deriving DecidableEq

/-- The equality operator of l500-thermal-loop.h lines 57-73: sizes first,
then the four header fields, then a loop over the entries comparing the four
fields of each; any mismatch returns false. -/
def thermal_table_eq (lhs rhs : thermal_calibration_table) : Bool :=
  if lhs.vals.length ≠ rhs.vals.length then false
  else if lhs.header.max_temp ≠ rhs.header.max_temp ∨
          lhs.header.min_temp ≠ rhs.header.min_temp ∨
          lhs.header.reference_temp ≠ rhs.header.reference_temp ∨
          lhs.header.valid ≠ rhs.header.valid then false
  else decide (∀ i < rhs.vals.length,
    (lhs.vals.getD i default).scale = (rhs.vals.getD i default).scale ∧
    (lhs.vals.getD i default).sheer = (rhs.vals.getD i default).sheer ∧
    (lhs.vals.getD i default).tx = (rhs.vals.getD i default).tx ∧
    (lhs.vals.getD i default).ty = (rhs.vals.getD i default).ty)

/-!
Concrete fixtures used by the witness theorems.
-/

/-- Witness projection pipeline: everything projects to pixel (0, 0). -/
def wproj : Nat → Nat → ℚ → ℚ × ℚ := fun _ _ _ => (0, 0)

/-- Witness depth fetch with constant nonzero depth. -/
def wgd : Nat → ℚ := fun _ => 1

/-- Witness raw depth buffer with constant nonzero raw value. -/
def wdepth : Nat → Nat := fun _ => 1

/-- Witness zeroed output buffer. -/
def wout0 : Int → Nat := fun _ => 0

/-- Witness 1-byte-pixel color buffer. -/
def wcolor1 : Int → bytes 1 := fun _ => fun _ => 7

/-- Witness 1-byte-pixel zeroed output buffer. -/
def wout1 : Nat → bytes 1 := fun _ => fun _ => 0

/-- Witness thermal table with the well-formed 29 entries. -/
def wtable : thermal_calibration_table :=
  { header := { min_temp := 0, max_temp := 58, reference_temp := 0, valid := 1 },
    vals := List.replicate 29 { scale := 1, sheer := 0, tx := 0, ty := 0 } }

/-!
Helper lemmas.
-/

lemma alignPixel_fst {Wd Wo Ho : Nat} {gd : Nat → ℚ} {proj : Nat → Nat → ℚ → ℚ × ℚ}
    {x y : Nat} {p : Nat × Int} (h : alignPixel Wd Wo Ho gd proj x y = some p) :
    p.1 = y * Wd + x := by
  unfold alignPixel at h
  split at h
  · exact absurd h (by simp)
  · split at h
    · exact absurd h (by simp)
    · cases h; rfl

lemma alignPixel_eq_some {Wd Wo Ho : Nat} {gd : Nat → ℚ} {proj : Nat → Nat → ℚ → ℚ × ℚ}
    {x y : Nat} {p : Nat × Int} :
    alignPixel Wd Wo Ho gd proj x y = some p ↔
      gd (y * Wd + x) ≠ 0 ∧
      0 ≤ cround (proj x y (gd (y * Wd + x))).1 ∧
      0 ≤ cround (proj x y (gd (y * Wd + x))).2 ∧
      cround (proj x y (gd (y * Wd + x))).1 < (Wo : Int) ∧
      cround (proj x y (gd (y * Wd + x))).2 < (Ho : Int) ∧
      p = (y * Wd + x,
        cround (proj x y (gd (y * Wd + x))).2 * (Wo : Int) + cround (proj x y (gd (y * Wd + x))).1) := by
  unfold alignPixel
  split
  · rename_i hz
    simp only [hz]
    constructor
    · intro h; exact absurd h (by simp)
    · rintro ⟨h, -⟩; exact absurd rfl h
  · rename_i hz
    split
    · rename_i hb
      constructor
      · intro h; exact absurd h (by simp)
      · rintro ⟨-, h1, h2, h3, h4, -⟩
        rcases hb with hb | hb | hb | hb <;> omega
    · rename_i hb
      push_neg at hb
      obtain ⟨b1, b2, b3, b4⟩ := hb
      constructor
      · intro h
        cases h
        exact ⟨hz, b1, b2, b3, b4, rfl⟩
      · rintro ⟨-, -, -, -, -, rfl⟩
        rfl

lemma mem_align_images {Wd Hd Wo Ho : Nat} {gd : Nat → ℚ} {proj : Nat → Nat → ℚ → ℚ × ℚ}
    {p : Nat × Int} :
    p ∈ align_images Wd Hd Wo Ho gd proj ↔
      ∃ y, y < Hd ∧ ∃ x, x < Wd ∧ alignPixel Wd Wo Ho gd proj x y = some p := by
  simp [align_images, List.mem_flatMap, List.mem_filterMap, List.mem_range]

lemma mul_add_lt_decomp {Wd x1 x2 y1 y2 : Nat} (h1 : x1 < Wd) (h2 : x2 < Wd)
    (h : y1 * Wd + x1 = y2 * Wd + x2) : x1 = x2 ∧ y1 = y2 := by
  rcases Nat.lt_trichotomy y1 y2 with hy | hy | hy
  · exfalso
    have w1 : y1 * Wd + Wd ≤ y2 * Wd := by
      calc y1 * Wd + Wd = (y1 + 1) * Wd := by ring
        _ ≤ y2 * Wd := Nat.mul_le_mul_right _ hy
    omega
  · subst hy
    omega
  · exfalso
    have w1 : y2 * Wd + Wd ≤ y1 * Wd := by
      calc y2 * Wd + Wd = (y2 + 1) * Wd := by ring
        _ ≤ y1 * Wd := Nat.mul_le_mul_right _ hy
    omega

lemma align_images_pairwise_fst (Wd Hd Wo Ho : Nat) (gd : Nat → ℚ)
    (proj : Nat → Nat → ℚ → ℚ × ℚ) :
    (align_images Wd Hd Wo Ho gd proj).Pairwise (fun p q => p.1 < q.1) := by
  unfold align_images
  rw [List.flatMap_def, List.pairwise_flatten]
  constructor
  · intro l hl
    simp only [List.mem_map, List.mem_range] at hl
    obtain ⟨y, -, rfl⟩ := hl
    rw [List.pairwise_filterMap]
    have := List.pairwise_lt_range Wd
    refine this.imp_of_mem ?_
    intro a b ha hb hab
    intro p hp q hq
    rw [alignPixel_fst hp, alignPixel_fst hq]
    omega
  · rw [List.pairwise_map]
    have := List.pairwise_lt_range Hd
    refine this.imp_of_mem ?_
    intro y1 y2 h1 h2 hy
    intro p hp q hq
    simp only [List.mem_filterMap, List.mem_range] at hp hq
    obtain ⟨x1, hx1, hp⟩ := hp
    obtain ⟨x2, hx2, hq⟩ := hq
    rw [alignPixel_fst hp, alignPixel_fst hq]
    have : (y1 + 1) * Wd ≤ y2 * Wd := Nat.mul_le_mul_right _ hy
    rw [Nat.add_mul, one_mul] at this
    omega

lemma filter_fst_eq_of_pairwise {l : List (Nat × Int)}
    (hl : l.Pairwise (fun p q => p.1 < q.1)) {p : Nat × Int} (hp : p ∈ l) :
    l.filter (fun q => q.1 == p.1) = [p] := by
  induction l with
  | nil => cases hp
  | cons a t ih =>
    rw [List.pairwise_cons] at hl
    obtain ⟨ha, ht⟩ := hl
    rcases List.mem_cons.1 hp with rfl | hp
    · have : t.filter (fun q => q.1 == p.1) = [] := by
        rw [List.filter_eq_nil_iff]
        intro q hq
        have := ha q hq
        simp only [beq_iff_eq]
        omega
      simp [List.filter_cons, this]
    · have hne : ¬ (a.1 == p.1) = true := by
        have := ha p hp
        simp only [beq_iff_eq]
        omega
      rw [List.filter_cons, if_neg hne]
      exact ih ht hp

lemma mem_of_getLast?_eq {α : Type} {l : List α} {a : α} (h : l.getLast? = some a) : a ∈ l := by
  induction l using List.reverseRecOn with
  | nil => simp at h
  | append_singleton l b ih =>
    rw [show (l ++ [b]).getLast? = some b by simp] at h
    cases h
    simp

lemma foldl_update_snd {β : Type} (f : Nat → β) (l : List (Nat × Int)) (init : Int → β)
    (j : Int) :
    (l.foldl (fun out p => Function.update out p.2 (f p.1)) init) j
      = ((l.filter (fun p => p.2 == j)).getLast?.elim (init j) (fun p => f p.1)) := by
  induction l using List.reverseRecOn with
  | nil => simp
  | append_singleton l a ih =>
    rw [List.foldl_append, List.filter_append]
    by_cases hj : a.2 = j
    · have hf : List.filter (fun p => p.2 == j) [a] = [a] := by simp [List.filter_cons, hj]
      rw [hf]
      simp [Function.update_apply, hj, List.getLast?_append]
    · have hf : List.filter (fun p => p.2 == j) [a] = [] := by simp [List.filter_cons, hj]
      rw [hf, List.append_nil]
      simp only [List.foldl_cons, List.foldl_nil]
      rw [Function.update_apply, if_neg (by omega), ih]

lemma foldl_update_fst {β : Type} (g : Int → β) (l : List (Nat × Int)) (init : Nat → β)
    (k : Nat) :
    (l.foldl (fun out p => Function.update out p.1 (g p.2)) init) k
      = ((l.filter (fun p => p.1 == k)).getLast?.elim (init k) (fun p => g p.2)) := by
  induction l using List.reverseRecOn with
  | nil => simp
  | append_singleton l a ih =>
    rw [List.foldl_append, List.filter_append]
    by_cases hk : a.1 = k
    · have hf : List.filter (fun p => p.1 == k) [a] = [a] := by simp [List.filter_cons, hk]
      rw [hf]
      simp [Function.update_apply, hk, List.getLast?_append]
    · have hf : List.filter (fun p => p.1 == k) [a] = [] := by simp [List.filter_cons, hk]
      rw [hf, List.append_nil]
      simp only [List.foldl_cons, List.foldl_nil]
      rw [Function.update_apply, if_neg (by omega), ih]

lemma pairwise_getLast_max {l : List (Nat × Int)}
    (hl : l.Pairwise (fun p q => p.1 < q.1)) {a : Nat × Int} (ha : l.getLast? = some a) :
    ∀ r ∈ l, r.1 ≤ a.1 := by
  induction l using List.reverseRecOn with
  | nil => simp at ha
  | append_singleton l b ih =>
    rw [show (l ++ [b]).getLast? = some b by simp] at ha
    cases ha
    rw [List.pairwise_append] at hl
    intro r hr
    rcases List.mem_append.1 hr with hr | hr
    · exact le_of_lt (hl.2.2 r hr a (by simp))
    · rw [List.mem_singleton] at hr
      subst hr
      exact le_rfl

lemma alignPixel_snd_bounds {Wd Wo Ho : Nat} {gd : Nat → ℚ} {proj : Nat → Nat → ℚ → ℚ × ℚ}
    {x y : Nat} {p : Nat × Int} (h : alignPixel Wd Wo Ho gd proj x y = some p) :
    0 ≤ p.2 ∧ p.2 < ((Wo * Ho : Nat) : Int) := by
  rw [alignPixel_eq_some] at h
  obtain ⟨-, h1, h2, h3, h4, rfl⟩ := h
  simp only
  constructor
  · have := mul_nonneg h2 (Int.ofNat_nonneg Wo)
    omega
  · have hb : (cround (proj x y (gd (y * Wd + x))).2 + 1) * (Wo : Int) ≤ (Ho : Int) * Wo := by
      apply mul_le_mul_of_nonneg_right _ (Int.ofNat_nonneg Wo)
      omega
    rw [add_mul, one_mul] at hb
    push_cast
    rw [mul_comm (Wo : Int) (Ho : Int)]
    omega

lemma foldl_set_mem {P : Int → Prop} :
    ∀ (l : List (Nat × Int)) (t0 : List Int), (∀ p ∈ l, P p.2) → (∀ e ∈ t0, P e) →
      ∀ e ∈ l.foldl (fun t p => t.set p.1 p.2) t0, P e := by
  intro l
  induction l with
  | nil => intro t0 _ h0 e he; exact h0 e he
  | cons a t ih =>
    intro t0 hl h0 e he
    rw [List.foldl_cons] at he
    refine ih _ (fun p hp => hl p (List.mem_cons_of_mem a hp)) ?_ e he
    intro e2 he2
    rcases List.mem_or_eq_of_mem_set he2 with h | h
    · exact h0 e2 h
    · rw [h]; exact hl a (List.mem_cons_self a t)

lemma clamp_byte_eq_bt601 (v : Int) : clamp_byte v = (bt601_clamp v).toNat := by
  rw [clamp_byte, bt601_clamp]
  rcases lt_trichotomy v 0 with h | h | h
  · rw [if_pos h]
    omega
  · subst h
    rfl
  · rw [if_neg (by omega)]
    by_cases h2 : 255 < v
    · rw [if_pos h2]
      omega
    · rw [if_neg h2]
      omega

set_option maxRecDepth 4096 in
lemma unpack_y16_from_y8_eq (p : Nat) (hp : p < 256) : unpack_y16_from_y8 p = 257 * p := by
  revert hp
  revert p
  decide

lemma unpack_y16_from_y16_10_eq (p : Nat) (hp : p < 1024) :
    unpack_y16_from_y16_10 p = 64 * p := by
  rw [unpack_y16_from_y16_10, Nat.shiftLeft_eq]
  have : p * 2 ^ 6 < 65536 := by omega
  rw [Nat.mod_eq_of_lt this]
  omega

lemma cround_zero : cround 0 = 0 := by
  rw [cround, if_neg (lt_irrefl 0), zero_add]
  rw [Int.floor_eq_zero_iff]
  constructor <;> norm_num

lemma alignPixel_wproj (gd : Nat → ℚ) (hgd : gd 0 ≠ 0) :
    alignPixel 1 1 1 gd wproj 0 0 = some (0, 0) := by
  rw [alignPixel_eq_some]
  refine ⟨by simpa using hgd, ?_, ?_, ?_, ?_, ?_⟩ <;>
    simp [wproj, cround_zero]

/-!
Claim theorems.
-/

/-- C1: in align_images, for each depth pixel (x, y): a zero fetched depth
never reaches the transfer callback; a nonzero depth whose rounded projection
(ox, oy) lies inside [0, Wo) x [0, Ho) reaches the callback exactly once,
with arguments (y*Wd + x, oy*Wo + ox); a rounded projection outside those
bounds never reaches the callback. -/
theorem align_images_transfer_spec (Wd Hd Wo Ho : Nat) (gd : Nat → ℚ)
    (proj : Nat → Nat → ℚ → ℚ × ℚ) (x y : Nat) (hx : x < Wd) (hy : y < Hd) :
    (gd (y * Wd + x) = 0 →
      ∀ p ∈ align_images Wd Hd Wo Ho gd proj, p.1 ≠ y * Wd + x) ∧
    (gd (y * Wd + x) ≠ 0 →
      ((0 ≤ cround (proj x y (gd (y * Wd + x))).1 ∧
        0 ≤ cround (proj x y (gd (y * Wd + x))).2 ∧
        cround (proj x y (gd (y * Wd + x))).1 < (Wo : Int) ∧
        cround (proj x y (gd (y * Wd + x))).2 < (Ho : Int)) →
        (align_images Wd Hd Wo Ho gd proj).filter (fun p => p.1 == y * Wd + x)
          = [(y * Wd + x,
              cround (proj x y (gd (y * Wd + x))).2 * (Wo : Int) +
                cround (proj x y (gd (y * Wd + x))).1)]) ∧
      (¬ (0 ≤ cround (proj x y (gd (y * Wd + x))).1 ∧
          0 ≤ cround (proj x y (gd (y * Wd + x))).2 ∧
          cround (proj x y (gd (y * Wd + x))).1 < (Wo : Int) ∧
          cround (proj x y (gd (y * Wd + x))).2 < (Ho : Int)) →
        ∀ p ∈ align_images Wd Hd Wo Ho gd proj, p.1 ≠ y * Wd + x)) := by
  have nomem : ∀ p ∈ align_images Wd Hd Wo Ho gd proj, p.1 = y * Wd + x →
      gd (y * Wd + x) ≠ 0 ∧
      (0 ≤ cround (proj x y (gd (y * Wd + x))).1 ∧
       0 ≤ cround (proj x y (gd (y * Wd + x))).2 ∧
       cround (proj x y (gd (y * Wd + x))).1 < (Wo : Int) ∧
       cround (proj x y (gd (y * Wd + x))).2 < (Ho : Int)) := by
    intro p hp hfst
    rw [mem_align_images] at hp
    obtain ⟨y2, hy2, x2, hx2, hsome⟩ := hp
    rw [alignPixel_eq_some] at hsome
    obtain ⟨hz, h1, h2, h3, h4, rfl⟩ := hsome
    simp only at hfst
    obtain ⟨rfl, rfl⟩ := mul_add_lt_decomp hx2 hx hfst
    exact ⟨hz, h1, h2, h3, h4⟩
  refine ⟨?_, fun hz => ⟨?_, ?_⟩⟩
  · intro h0 p hp hfst
    exact ((nomem p hp hfst).1 h0)
  · intro hb
    obtain ⟨h1, h2, h3, h4⟩ := hb
    have hmem : (y * Wd + x,
        cround (proj x y (gd (y * Wd + x))).2 * (Wo : Int) +
          cround (proj x y (gd (y * Wd + x))).1) ∈ align_images Wd Hd Wo Ho gd proj := by
      rw [mem_align_images]
      exact ⟨y, hy, x, hx, alignPixel_eq_some.2 ⟨hz, h1, h2, h3, h4, rfl⟩⟩
    exact filter_fst_eq_of_pairwise (align_images_pairwise_fst Wd Hd Wo Ho gd proj) hmem
  · intro hb p hp hfst
    exact hb ((nomem p hp hfst).2)

/-- C1 witness: on the 1x1 instance with constant depth 1 and a projection
pipeline sending everything to (0, 0), the single depth pixel transfers
exactly once with the pair (0, 0). -/
theorem align_images_transfer_spec_witness :
    (0 < 1 ∧ wgd 0 ≠ 0) ∧
    (align_images 1 1 1 1 wgd wproj).filter (fun p => p.1 == 0) = [(0, 0)] := by
  have h := ((align_images_transfer_spec 1 1 1 1 wgd wproj 0 0 Nat.one_pos Nat.one_pos).2
    (by simp [wgd])).1 (by simp [wproj, cround_zero])
  refine ⟨⟨Nat.one_pos, by simp [wgd]⟩, ?_⟩
  simpa [wproj, wgd, cround_zero] using h

/-- C2: in align_depth_to_color, a destination index j that receives at least
one transfer ends up holding the raw 16-bit depth value of a depth pixel
(unscaled: depth_scale enters the zero test only), namely the raster-order
last depth pixel whose projection lands on j. -/
theorem align_depth_to_color_last_writer (Wd Hd Wo Ho : Nat) (depth_pixels : Nat → Nat)
    (depth_scale : ℚ) (proj : Nat → Nat → ℚ → ℚ × ℚ) (out0 : Int → Nat) (j : Int)
    (hj : ∃ p ∈ align_images Wd Hd Wo Ho (fun i => (depth_pixels i : ℚ) * depth_scale) proj,
            p.2 = j) :
    ∃ q ∈ align_images Wd Hd Wo Ho (fun i => (depth_pixels i : ℚ) * depth_scale) proj,
      q.2 = j ∧
      align_depth_to_color Wd Hd Wo Ho depth_pixels depth_scale proj out0 j
        = depth_pixels q.1 ∧
      ∀ r ∈ align_images Wd Hd Wo Ho (fun i => (depth_pixels i : ℚ) * depth_scale) proj,
        r.2 = j → r.1 ≤ q.1 := by
  obtain ⟨p, hp, hpj⟩ := hj
  have hpf : p ∈ (align_images Wd Hd Wo Ho (fun i => (depth_pixels i : ℚ) * depth_scale)
      proj).filter (fun p => p.2 == j) := by
    rw [List.mem_filter]
    exact ⟨hp, by simp [hpj]⟩
  have hne : (align_images Wd Hd Wo Ho (fun i => (depth_pixels i : ℚ) * depth_scale)
      proj).filter (fun p => p.2 == j) ≠ [] :=
    List.ne_nil_of_mem hpf
  obtain ⟨q, hq⟩ := Option.isSome_iff_exists.1 (List.getLast?_isSome.2 hne)
  have hqf := mem_of_getLast?_eq hq
  rw [List.mem_filter] at hqf
  refine ⟨q, hqf.1, by simpa using hqf.2, ?_, ?_⟩
  · rw [align_depth_to_color, foldl_update_snd, hq]
    rfl
  · intro r hr hrj
    have hrf : r ∈ (align_images Wd Hd Wo Ho (fun i => (depth_pixels i : ℚ) * depth_scale)
        proj).filter (fun p => p.2 == j) := by
      rw [List.mem_filter]
      exact ⟨hr, by simp [hrj]⟩
    exact pairwise_getLast_max
      (List.Pairwise.sublist (List.filter_sublist _)
        (align_images_pairwise_fst Wd Hd Wo Ho _ proj)) hq r hrf

/-- C2 witness: on the 1x1 instance, destination index 0 receives a transfer
and ends up holding the raw depth value of the last (only) depth pixel
projecting there. -/
theorem align_depth_to_color_last_writer_witness :
    ((0, 0) ∈ align_images 1 1 1 1 (fun i => (wdepth i : ℚ) * 1) wproj) ∧
    (∃ q ∈ align_images 1 1 1 1 (fun i => (wdepth i : ℚ) * 1) wproj,
      q.2 = 0 ∧
      align_depth_to_color 1 1 1 1 wdepth 1 wproj wout0 0 = wdepth q.1 ∧
      ∀ r ∈ align_images 1 1 1 1 (fun i => (wdepth i : ℚ) * 1) wproj,
        r.2 = 0 → r.1 ≤ q.1) := by
  have hmem : (0, 0) ∈ align_images 1 1 1 1 (fun i => (wdepth i : ℚ) * 1) wproj := by
    rw [mem_align_images]
    exact ⟨0, Nat.one_pos, 0, Nat.one_pos, alignPixel_wproj _ (by simp [wdepth])⟩
  exact ⟨hmem,
    align_depth_to_color_last_writer 1 1 1 1 wdepth 1 wproj wout0 0 ⟨(0, 0), hmem, rfl⟩⟩

/-- C7: in align_color_to_depth_bytes, the depth-pixel indices of the transfer
invocations are pairwise distinct (no destination index is written twice), and
every transferred depth index ends up holding in_color[other_index], the byte
group fetched at its own projected index. -/
theorem align_color_to_depth_bytes_writes (N : Nat) (Wd Hd Wo Ho : Nat)
    (depth_pixels : Nat → Nat) (depth_scale : ℚ) (proj : Nat → Nat → ℚ → ℚ × ℚ)
    (in_color : Int → bytes N) (out0 : Nat → bytes N) (p : Nat × Int)
    (hp : p ∈ align_images Wd Hd Wo Ho (fun i => (depth_pixels i : ℚ) * depth_scale) proj) :
    ((align_images Wd Hd Wo Ho (fun i => (depth_pixels i : ℚ) * depth_scale) proj).map
        Prod.fst).Nodup ∧
    align_color_to_depth_bytes N Wd Hd Wo Ho depth_pixels depth_scale proj in_color out0 p.1
      = in_color p.2 := by
  constructor
  · exact (List.pairwise_map.2
      (align_images_pairwise_fst Wd Hd Wo Ho _ proj)).imp (fun h => Nat.ne_of_lt h)
  · rw [align_color_to_depth_bytes, foldl_update_fst,
      filter_fst_eq_of_pairwise (align_images_pairwise_fst Wd Hd Wo Ho _ proj) hp]
    rfl

/-- C7 witness: on the 1x1 instance with 1-byte pixels, the single transfer
(0, 0) happens, the written depth indices are duplicate-free, and depth index
0 holds the color pixel fetched at index 0. -/
theorem align_color_to_depth_bytes_writes_witness :
    ((0, 0) ∈ align_images 1 1 1 1 (fun i => (wdepth i : ℚ) * 1) wproj) ∧
    (((align_images 1 1 1 1 (fun i => (wdepth i : ℚ) * 1) wproj).map Prod.fst).Nodup ∧
      align_color_to_depth_bytes 1 1 1 1 1 wdepth 1 wproj wcolor1 wout1 0 = wcolor1 0) := by
  have hmem : (0, 0) ∈ align_images 1 1 1 1 (fun i => (wdepth i : ℚ) * 1) wproj := by
    rw [mem_align_images]
    exact ⟨0, Nat.one_pos, 0, Nat.one_pos, alignPixel_wproj _ (by simp [wdepth])⟩
  exact ⟨hmem,
    align_color_to_depth_bytes_writes 1 1 1 1 1 wdepth 1 wproj wcolor1 wout1 (0, 0) hmem⟩

/-- C10: given a non-empty unrectified image, every entry of the table built by
compute_rectification_table is an in-bounds unrectified pixel index in
[0, unrect_width * unrect_height): written entries pass the kernel bounds
check, unwritten entries keep the value-initialised 0.  Consequently every
pixel produced by rectify_image_pixels is read from an in-bounds source index. -/
theorem compute_rectification_table_in_bounds (Wr Hr Wu Hu : Nat)
    (proj : Nat → Nat → ℚ → ℚ × ℚ) {β : Type} (unrect_pixels : Int → β)
    (h : 0 < Wu * Hu) :
    (∀ e ∈ compute_rectification_table Wr Hr Wu Hu proj,
        0 ≤ e ∧ e < ((Wu * Hu : Nat) : Int)) ∧
    (∀ v ∈ rectify_image_pixels (compute_rectification_table Wr Hr Wu Hu proj) unrect_pixels,
        ∃ e, 0 ≤ e ∧ e < ((Wu * Hu : Nat) : Int) ∧ v = unrect_pixels e) := by
  have hmain : ∀ e ∈ compute_rectification_table Wr Hr Wu Hu proj,
      0 ≤ e ∧ e < ((Wu * Hu : Nat) : Int) := by
    refine foldl_set_mem _ _ ?_ ?_
    · intro p hp
      rw [mem_align_images] at hp
      obtain ⟨y, -, x, -, hsome⟩ := hp
      exact alignPixel_snd_bounds hsome
    · intro e he
      rw [List.mem_replicate] at he
      rw [he.2]
      constructor
      · exact le_rfl
      · exact_mod_cast h
  refine ⟨hmain, ?_⟩
  intro v hv
  rw [rectify_image_pixels, List.mem_map] at hv
  obtain ⟨e, he, rfl⟩ := hv
  exact ⟨e, (hmain e he).1, (hmain e he).2, rfl⟩

/-- C10 witness: the 1x1 instance with a non-empty unrectified image. -/
theorem compute_rectification_table_in_bounds_witness :
    (0 < 1 * 1) ∧
    ((∀ e ∈ compute_rectification_table 1 1 1 1 wproj,
        0 ≤ e ∧ e < ((1 * 1 : Nat) : Int)) ∧
     (∀ v ∈ rectify_image_pixels (compute_rectification_table 1 1 1 1 wproj) wcolor1,
        ∃ e, 0 ≤ e ∧ e < ((1 * 1 : Nat) : Int) ∧ v = wcolor1 e)) :=
  ⟨Nat.one_pos,
   compute_rectification_table_in_bounds 1 1 1 1 wproj wcolor1 Nat.one_pos⟩

/-- C8: align_color_to_depth and rectify_image reject RS_FORMAT_YUYV with
UnsupportedFormat and perform no pixel transfer; every other pixel format
(Y8; Y16/Z16; RGB8/BGR8; RGBA8/BGRA8, of pixel width 1, 2, 3, 4 bytes)
succeeds. -/
theorem yuyv_rejected (Wd Hd Wo Ho : Nat) (depth_pixels : Nat → Nat) (depth_scale : ℚ)
    (proj : Nat → Nat → ℚ → ℚ × ℚ) (color_bytes out_bytes unrect_bytes : Int → Nat)
    (rectification_table : List Int) (fmt : rs_format) :
    align_color_to_depth Wd Hd Wo Ho depth_pixels depth_scale proj color_bytes out_bytes
        rs_format.YUYV = .error .UnsupportedFormat ∧
    rectify_image rectification_table unrect_bytes rs_format.YUYV
        = .error .UnsupportedFormat ∧
    (align_color_to_depth Wd Hd Wo Ho depth_pixels depth_scale proj color_bytes out_bytes
        fmt).isOk = decide (fmt ≠ rs_format.YUYV) ∧
    (rectify_image rectification_table unrect_bytes fmt).isOk
        = decide (fmt ≠ rs_format.YUYV) := by
  refine ⟨rfl, rfl, ?_, ?_⟩ <;> cases fmt <;> rfl

/-- C5: get_image_size returns (w / macropixel_width) * h * macropixel_bytes
for each of the 11 supported FourCC codes when the width is a multiple of the
macropixel width, fails with BadGeometry for a supported code when it is not,
and fails with UnsupportedFormat for every tag outside the closed set. -/
theorem get_image_size_spec (w h tag mpw mps : Nat) :
    ((tag, mpw, mps) ∈ formats → w % mpw = 0 →
      get_image_size w h tag = .ok (w / mpw * h * mps)) ∧
    ((tag, mpw, mps) ∈ formats → w % mpw ≠ 0 →
      get_image_size w h tag = .error .BadGeometry) ∧
    (tag ∉ formats.map (fun f => f.1) →
      get_image_size w h tag = .error .UnsupportedFormat) := by
  have hfind : (tag, mpw, mps) ∈ formats →
      formats.find? (fun f => f.1 == tag) = some (tag, mpw, mps) := by
    intro hm
    simp only [formats, fourcc_YUY2, fourcc_Z16, fourcc_Y8, fourcc_Y16, fourcc_Y8I,
      fourcc_Y12I, fourcc_INVR, fourcc_INVZ, fourcc_INVI, fourcc_INRI, fourcc_INZI,
      List.mem_cons, List.not_mem_nil, or_false, Prod.mk.injEq] at hm
    rcases hm with ⟨h1, h2, h3⟩ | ⟨h1, h2, h3⟩ | ⟨h1, h2, h3⟩ | ⟨h1, h2, h3⟩ | ⟨h1, h2, h3⟩ |
      ⟨h1, h2, h3⟩ | ⟨h1, h2, h3⟩ | ⟨h1, h2, h3⟩ | ⟨h1, h2, h3⟩ | ⟨h1, h2, h3⟩ | ⟨h1, h2, h3⟩ <;>
      (subst h1; subst h2; subst h3; rfl)
  refine ⟨?_, ?_, ?_⟩
  · intro hm hdvd
    rw [get_image_size, hfind hm]
    simp [hdvd]
  · intro hm hdvd
    rw [get_image_size, hfind hm]
    simp [hdvd]
  · intro hnm
    rw [get_image_size, List.find?_eq_none.2 ?_]
    intro f hf
    simp only [beq_iff_eq]
    intro hc
    exact hnm (List.mem_map.2 ⟨f, hf, hc⟩)

/-- C5 witness: YUY2 at width 4, height 3 gives (4 / 2) * 3 * 4 bytes. -/
theorem get_image_size_spec_witness :
    ((fourcc_YUY2, 2, 4) ∈ formats ∧ 4 % 2 = 0) ∧
    get_image_size 4 3 fourcc_YUY2 = .ok (4 / 2 * 3 * 4) :=
  ⟨⟨by decide, by decide⟩,
   (get_image_size_spec 4 3 fourcc_YUY2 2 4).1 (by decide) (by decide)⟩

/-- C3: each YUY2 macropixel {y0, u, y1, v} is decoded to two RGB8 pixels by
the BT.601 fixed-point formulas of the spec, the first from y0, the second
from y1; in particular {y0 = 81, u = 90, y1 = 81, v = 240} decodes to exactly
{255, 0, 0, 255, 0, 0}, within the plus-or-minus 1 tolerance the spec allows. -/
theorem unpack_rgb_from_yuy2_spec (source : List yuy2_macropixel) :
    unpack_rgb_from_yuy2 source = source.flatMap (fun p =>
      [byte3.mk (bt601_r p.y0 p.v).toNat (bt601_g p.y0 p.u p.v).toNat
         (bt601_b p.y0 p.u).toNat,
       byte3.mk (bt601_r p.y1 p.v).toNat (bt601_g p.y1 p.u p.v).toNat
         (bt601_b p.y1 p.u).toNat]) ∧
    unpack_rgb_from_yuy2 [yuy2_macropixel.mk 81 90 81 240]
      = [byte3.mk 255 0 0, byte3.mk 255 0 0] := by
  constructor
  · simp only [unpack_rgb_from_yuy2, unpack_from_yuy2]
    congr 1
    funext p
    simp [yuv_to_r, yuv_to_g, yuv_to_b, clamp_byte_eq_bt601, bt601_r, bt601_g, bt601_b]
  · decide

/-- C4 counterexample: the claim asserts that the input bytes 0xFF 0xF0 0xFF
give right10 = 0xFFF and a right plane value of 0xFFFF, but bit-fields fill
from the least significant bit, so byte 1 = 0xF0 gives rh = 0x0 and ll = 0xF:
the code computes right10 = 0x0FF and stores 0x3FCF on plane 1. -/
theorem y12i_claimed_example_false :
    (y12i_of_bytes 0xFF 0xF0 0xFF).r = 0x0FF ∧
    (unpack_y16_y16_from_y12i_10 [y12i_of_bytes 0xFF 0xF0 0xFF]).2 = [0x3FCF] ∧
    ¬ ((y12i_of_bytes 0xFF 0xF0 0xFF).r = 0xFFF ∧
       (unpack_y16_y16_from_y12i_10 [y12i_of_bytes 0xFF 0xF0 0xFF]).2 = [0xFFFF]) := by
  refine ⟨by decide, by decide, ?_⟩
  rintro ⟨h, -⟩
  exact absurd h (by decide)

/-- C4 amended: the codec extracts rl from byte 0, rh from the low nibble and
ll from the high nibble of byte 1, lh from byte 2; it forms
left12 = (lh << 4) | ll and right12 = (rh << 8) | rl (12-bit quantities, not
10-bit), and writes ((v << 6) | (v >> 4)) mod 2^16 of each to planes 0 and 1.
The input bytes 0xFF 0xF0 0xFF therefore give left12 = 0xFFF and
right12 = 0x0FF, stored as left = 0xFFFF and right = 0x3FCF. -/
theorem y12i_split_spec (b0 b1 b2 : Nat) :
    unpack_y16_y16_from_y12i_10 [y12i_of_bytes b0 b1 b2]
      = ([((b2 <<< 4 ||| b1 / 16) <<< 6 ||| (b2 <<< 4 ||| b1 / 16) >>> 4) % 65536],
         [(((b1 % 16) <<< 8 ||| b0) <<< 6 ||| ((b1 % 16) <<< 8 ||| b0) >>> 4) % 65536]) ∧
    unpack_y16_y16_from_y12i_10 [y12i_of_bytes 0xFF 0xF0 0xFF] = ([0xFFFF], [0x3FCF]) := by
  refine ⟨?_, by decide⟩
  simp [unpack_y16_y16_from_y12i_10, split_frame, y12i_of_bytes, y12i_pixel.l, y12i_pixel.r]

/-- C6 counterexample: the 10-bit-to-16-bit Y16 codec is pixel << 6, so the
full-scale input 1023 maps to 65472, not to 65535 as the claim asserts (the
shift-and-fold expansion that does map 1023 to 65535 belongs to the Y12I
codec, not to this one). -/
theorem y16_10_full_scale_false :
    unpack_y16_from_y16_10 1023 = 65472 ∧ ¬ unpack_y16_from_y16_10 1023 = 65535 := by
  exact ⟨by decide, by decide⟩

/-- C6 amended: both bit-depth expansions are strictly monotone, each on its
own full input range (bytes below 256 for Y8 to Y16, 10-bit samples below
1024 for the 10-bit codec); Y8 to Y16 maps 0 to 0 and 255 to 65535; the
10-bit-to-16-bit codec maps 0 to 0 and 1023 to 65472 (not full scale: the low
6 bits stay zero). -/
theorem bit_depth_expansion_monotone :
    (∀ p q, p < q → q < 256 → unpack_y16_from_y8 p < unpack_y16_from_y8 q) ∧
    (∀ p q, p < q → q < 1024 → unpack_y16_from_y16_10 p < unpack_y16_from_y16_10 q) ∧
    unpack_y16_from_y8 0 = 0 ∧ unpack_y16_from_y8 255 = 65535 ∧
    unpack_y16_from_y16_10 0 = 0 ∧ unpack_y16_from_y16_10 1023 = 65472 := by
  refine ⟨?_, ?_, by decide, by decide, by decide, by decide⟩
  · intro p q hpq hq8
    rw [unpack_y16_from_y8_eq p (by omega), unpack_y16_from_y8_eq q hq8]
    omega
  · intro p q hpq hq10
    rw [unpack_y16_from_y16_10_eq p (by omega), unpack_y16_from_y16_10_eq q hq10]
    omega

/-- C6 witness: the byte instance 0 < 255 and the 10-bit instance 300 < 301,
the latter exercising the part of the 10-bit range above one byte. -/
theorem bit_depth_expansion_monotone_witness :
    (0 < 255 ∧ 255 < 256 ∧ 300 < 301 ∧ 301 < 1024) ∧
    (unpack_y16_from_y8 0 < unpack_y16_from_y8 255 ∧
     unpack_y16_from_y16_10 300 < unpack_y16_from_y16_10 301) :=
  ⟨⟨by decide, by decide, by decide, by decide⟩,
   bit_depth_expansion_monotone.1 0 255 (by decide) (by decide),
   bit_depth_expansion_monotone.2.1 300 301 (by decide) (by decide)⟩

/-- C9: on tables with the well-formed 29 entries, the equality operator
returns true exactly when the four header fields are equal and all 29 entries
are elementwise equal in every field (scale, sheer, tx, ty). -/
theorem thermal_table_eq_iff (lhs rhs : thermal_calibration_table)
    (hl : lhs.vals.length = 29) (hr : rhs.vals.length = 29) :
    thermal_table_eq lhs rhs = true ↔
      (lhs.header.min_temp = rhs.header.min_temp ∧
       lhs.header.max_temp = rhs.header.max_temp ∧
       lhs.header.reference_temp = rhs.header.reference_temp ∧
       lhs.header.valid = rhs.header.valid ∧
       ∀ i < 29,
         (lhs.vals.getD i default).scale = (rhs.vals.getD i default).scale ∧
         (lhs.vals.getD i default).sheer = (rhs.vals.getD i default).sheer ∧
         (lhs.vals.getD i default).tx = (rhs.vals.getD i default).tx ∧
         (lhs.vals.getD i default).ty = (rhs.vals.getD i default).ty) := by
  rw [thermal_table_eq, if_neg (by omega), hr]
  by_cases hh : lhs.header.max_temp ≠ rhs.header.max_temp ∨
      lhs.header.min_temp ≠ rhs.header.min_temp ∨
      lhs.header.reference_temp ≠ rhs.header.reference_temp ∨
      lhs.header.valid ≠ rhs.header.valid
  · rw [if_pos hh]
    constructor
    · intro h
      exact absurd h (by simp)
    · rintro ⟨h1, h2, h3, h4, -⟩
      exfalso
      rcases hh with hh | hh | hh | hh <;> exact hh (by assumption)
  · rw [if_neg hh]
    push_neg at hh
    obtain ⟨h1, h2, h3, h4⟩ := hh
    rw [decide_eq_true_eq]
    constructor
    · intro h
      exact ⟨h2, h1, h3, h4, h⟩
    · rintro ⟨-, -, -, -, h⟩
      exact h

/-- C9 witness: a concrete 29-entry table compared against itself. -/
theorem thermal_table_eq_iff_witness :
    (wtable.vals.length = 29) ∧
    (thermal_table_eq wtable wtable = true ↔
      (wtable.header.min_temp = wtable.header.min_temp ∧
       wtable.header.max_temp = wtable.header.max_temp ∧
       wtable.header.reference_temp = wtable.header.reference_temp ∧
       wtable.header.valid = wtable.header.valid ∧
       ∀ i < 29,
         (wtable.vals.getD i default).scale = (wtable.vals.getD i default).scale ∧
         (wtable.vals.getD i default).sheer = (wtable.vals.getD i default).sheer ∧
         (wtable.vals.getD i default).tx = (wtable.vals.getD i default).tx ∧
         (wtable.vals.getD i default).ty = (wtable.vals.getD i default).ty)) :=
  ⟨by simp [wtable],
   thermal_table_eq_iff wtable wtable (by simp [wtable]) (by simp [wtable])⟩

end rsimpl
